import Mathlib

/-!
Verification of the firemorph migration orchestrator.

The definitions below are a shallow embedding of `src/cli.ts` (the
full-featured library variant: `gather`, `sortMigrationFiles`,
`runMigrations`, `migrate` with `dryRun` and `single` support).
External collaborators are modelled at their interface boundary:

* the `semver` library's `coerce`/comparison (modelled from the spec,
  section 4.1 and 6: a token `major`, `major.minor` or `major.minor.patch`
  with numeric components normalizes to a full version; anything else
  fails; comparison is lexicographic on major, minor, patch);
* the Firestore collection `_migrations` is a keyed document store,
  modelled as an association list with read-your-writes `get`/`set`
  (document `set` overwrites);
* the sha-256 digest used as the document key is deterministic and
  collision-free on version strings, modelled as the identity on
  normalized versions;
* `glob.sync(path.join(directory, "*.js"))` is modelled by a list of
  directory entries; each enumerated path is the directory joined with
  the entry's basename;
* `Timestamp.now()` is modelled by a counter that advances at each call;
* dynamic `import(f)` is modelled by an optional `migration` export
  carried by each directory entry, together with a flag telling whether
  the exported procedure resolves or rejects.

Console output from `printMigration` is modelled as a log of structured
events so that skip decisions and dry-run stops are observable.
-/

set_option autoImplicit false

namespace Firemorph

/-- A normalized semantic version (`major.minor.patch`). The source keeps
versions as normalized strings (`semver.coerce(raw).version`); normalized
strings are in bijection with these triples. -/
structure Semver where
  major : Nat
  minor : Nat
  patch : Nat
deriving DecidableEq, Repr

/-- Strict semantic-version order: major, then minor, then patch
(`semver.gt a b` in the source is `semverLt b a`). -/
def semverLt (a b : Semver) : Bool :=
  decide (a.major < b.major) ||
    (decide (a.major = b.major) &&
      (decide (a.minor < b.minor) ||
        (decide (a.minor = b.minor) && decide (a.patch < b.patch))))

/-- The `semver.gt` comparison of the source library. -/
def semverGt (a b : Semver) : Bool := semverLt b a

/-- Non-strict version order, the negation of `semverGt`. -/
def semverLe (a b : Semver) : Bool := ! semverGt a b

/-- The normalized version rendered as a string, as `version.version`
does in the source (`"major.minor.patch"`). -/
def showVersion (v : Semver) : String :=
  toString v.major ++ (".") ++ toString v.minor ++ (".") ++ toString v.patch

/-- Whether `p` occurs at the start of `l` (used by the split and
substring primitives below; they are written with structural/fuel
recursion so that the kernel can evaluate them on concrete inputs). -/
def headMatches : List Char → List Char → Bool
  | [], _ => true
  | _ :: _, [] => false
  | p :: ps, c :: cs => p == c && headMatches ps cs

/-- Split a character list on every occurrence of a (non-empty)
delimiter, `String.prototype.split` style: `"a__b__c" ↦ ["a","b","c"]`,
a string without the delimiter maps to the one-element list holding it.
The fuel argument makes the recursion structural; it is always called
with more fuel than characters. -/
def splitList (delim : List Char) : Nat → List Char → List (List Char)
  | 0, rest => [rest]
  | fuel + 1, rest =>
    match rest with
    | [] => [[]]
    | c :: cs =>
      if decide (delim ≠ []) && headMatches delim rest then
        [] :: splitList delim fuel (rest.drop delim.length)
      else
        match splitList delim fuel cs with
        | [] => [[c]]
        | seg :: segs => (c :: seg) :: segs

/-- JavaScript `s.split(delim)` on strings. -/
def strSplit (s delim : String) : List String :=
  (splitList delim.toList (s.toList.length + 1) s.toList).map (fun l => ⟨l⟩)

/-- Parse a non-empty all-digit character list as a decimal number. -/
def charsToNatAux : List Char → Nat → Option Nat
  | [], acc => some acc
  | c :: cs, acc =>
    if c.isDigit then charsToNatAux cs (acc * 10 + (c.toNat - 48)) else none

/-- The numeric value of a token, when it is a non-empty digit run. -/
def charsToNat? (l : List Char) : Option Nat :=
  match l with
  | [] => none
  | _ :: _ => charsToNatAux l 0

/-- Modelled from the spec: the external version model (`semver.coerce`).
A raw token of the form `major`, `major.minor` or `major.minor.patch`
with numeric components normalizes to a full `major.minor.patch`
version; anything else fails (spec sections 4.1 and 6). -/
def coerce (s : String) : Option Semver :=
  match (strSplit s (".")).map (fun c => charsToNat? c.toList) with
  | [some a] => some ⟨a, 0, 0⟩
  | [some a, some b] => some ⟨a, b, 0⟩
  | [some a, some b, some c] => some ⟨a, b, c⟩
  | _ => none

/-- The `MigrationFile` type from the source: a validated migration descriptor.
The opaque procedure `fn` is modelled by whether its promise resolves
(`true`) or rejects (`false`); its writes to application data are outside
the engine's state. -/
structure MigrationFile where
  version : Semver
  name : String
  fn : Bool
deriving DecidableEq, Repr

/-- The `MigrationResultStatus` enum from the source. -/
inductive MigrationResultStatus where
  | successful
  | failed
deriving DecidableEq, Repr

/-- The `MigrationResult` record from the source; `executed` is the clock value of
the `Timestamp.now()` call that produced it. -/
structure MigrationResult where
  executed : Nat
  version : Semver
  status : MigrationResultStatus
deriving DecidableEq, Repr

/-- The `_migrations` Firestore collection: one document per key. -/
abbrev Store := List (Semver × MigrationResult)

/-- Reading `MigrationCollection.doc(id).get()`: the document at a key. -/
def storeGet : Store → Semver → Option MigrationResult
  | [], _ => none
  | (k, r) :: t, v => if k = v then some r else storeGet t v

/-- Writing `remoteDoc.ref.set(result)`: overwrite the document at a key
(or create it). -/
def storeSet : Store → Semver → MigrationResult → Store
  | [], v, r => [(v, r)]
  | (k, r0) :: t, v, r => if k = v then (v, r) :: t else (k, r0) :: storeSet t v r

/-- Number of documents stored at a key. -/
def keyEntries (s : Store) (k : Semver) : Nat :=
  (s.filter (fun p => decide (p.1 = k))).length

/-- The source's `sortMigrationFiles` sorts with the comparator
`(a, b) => semver.gt(a.version, b.version) ? 1 : -1`: `a` is placed after
`b` exactly when `a.version > b.version`. The engine's `Array.sort` with
this comparator is modelled as insertion sort with that placement rule. -/
def insertSorted (m : MigrationFile) : List MigrationFile → List MigrationFile
  | [] => [m]
  | x :: xs => if semverGt m.version x.version then x :: insertSorted m xs else m :: x :: xs

/-- The `sortMigrationFiles` function from the source. -/
def sortMigrationFiles : List MigrationFile → List MigrationFile
  | [] => []
  | x :: xs => insertSorted x (sortMigrationFiles xs)

/-- The non-strict order the sorted output satisfies. -/
def fileLe (a b : MigrationFile) : Prop := semverLe a.version b.version = true

/-- The strict order the sorted output satisfies when versions are
pairwise distinct. -/
def fileLt (a b : MigrationFile) : Prop := semverLt a.version b.version = true

/-- Whether `pat` occurs as a contiguous run inside `l`. -/
def listContainsSub (pat : List Char) : List Char → Bool
  | [] => headMatches pat []
  | c :: cs => headMatches pat (c :: cs) || listContainsSub pat cs

/-- JavaScript `haystack.includes(pat)`: substring containment. -/
def strContains (haystack pat : String) : Bool :=
  listContainsSub pat.toList haystack.toList

/-- The `Options` type from the source (`single` is the optional `--only` list). -/
structure Options where
  directory : String
  delimiter : String
  ignoreRemote : Bool
  single : Option (List String)
  dryRun : Bool
deriving DecidableEq, Repr

/-- The module-level `defaults` object of the source. -/
def defaults : Options :=
  { directory := ("./migrations"), delimiter := ("__"), ignoreRemote := false,
    single := none, dryRun := false }

/-- A `Partial<Options>` argument: a field set to `none` is absent from the object. -/
structure PartialOptions where
  directory : Option String := none
  delimiter : Option String := none
  ignoreRemote : Option Bool := none
  single : Option (List String) := none
  dryRun : Option Bool := none
deriving DecidableEq, Repr

/-- The merge `Object.assign(defaults, options)`: fields present in `options`
override those of `defaults`; the merged object is also the new value of
the mutated module-level `defaults`. -/
def mergeOptions (d : Options) (o : Option PartialOptions) : Options :=
  match o with
  | none => d
  | some p =>
    { directory := p.directory.getD d.directory,
      delimiter := p.delimiter.getD d.delimiter,
      ignoreRemote := p.ignoreRemote.getD d.ignoreRemote,
      single := (p.single).orElse (fun _ => d.single),
      dryRun := p.dryRun.getD d.dryRun }

/-- Reading `options?.single`: the raw argument's selector, read before merging. -/
def singleTokens (o : Option PartialOptions) : Option (List String) :=
  o.bind PartialOptions.single

/-- One file enumerated by `glob.sync(path.join(directory, "*.js"))`:
its basename, and the dynamic import's `migration` export (`none` when
the module exports no function; `some b` when it does, with `b` telling
whether the procedure's promise resolves). -/
structure FileEntry where
  base : String
  migrationExport : Option Bool
deriving DecidableEq, Repr

/-- Joining `path.join(directory, base)`: the enumerated path of an entry. -/
def joinPath (dir base : String) : String := dir ++ ("/") ++ base

/-- The filter `(f) => f.includes(options.delimiter)` applied to the glob
result: it tests the whole enumerated path, not the basename. -/
def passesFilter (options : Options) (e : FileEntry) : Bool :=
  strContains (joinPath options.directory e.base) options.delimiter

/-- The token `path.basename(f).split(options.delimiter)[0]`: the raw version
token (`split` never yields an empty array). -/
def rawVersionOf (options : Options) (e : FileEntry) : String :=
  (strSplit e.base options.delimiter).headD ("")

/-- The coerced version of an entry's raw token. -/
def coerceOf (options : Options) (e : FileEntry) : Option Semver :=
  coerce (rawVersionOf options e)

/-- The version/duplicate validation pass of `gather`. In the source each
file's async callback performs `semver.coerce`, the `versions.includes`
duplicate check and the `versions.push` synchronously before its first
`await`, so these checks run for every file, in enumeration order, before
any dynamic import resolves; they are modelled as a first pass over the
filtered files. `acc` is the mutable `versions` array. -/
def checkVersions (options : Options) : List FileEntry → List Semver → Except String (List Semver)
  | [], acc => .ok acc
  | e :: es, acc =>
    match coerceOf options e with
    | none => .error (("Invalid version: \"") ++ rawVersionOf options e ++ ("\"."))
    | some v =>
      if v ∈ acc then
        .error (("Cannot have multiple files for version: ") ++ showVersion v)
      else checkVersions options es (acc ++ [v])

/-- The load step for one file, paired with its coerced version: the
dynamic `import(f)`, the `migration`-export check, and the construction
of the descriptor (`name` is the second `split` component with the
trailing-extension regex `\..*$` stripped; when the basename has no
delimiter the second component is `undefined` and `name.replace`
throws). -/
def loadOne (options : Options) (p : FileEntry × Semver) : Except String MigrationFile :=
  match p.1.migrationExport with
  | none => .error (("No migrate function found in: ") ++ joinPath options.directory p.1.base)
  | some success =>
    match ((strSplit p.1.base options.delimiter).drop 1).head? with
    | none => .error (("TypeError: Cannot read properties of undefined (reading 'replace')"))
    | some nm => .ok ⟨p.2, (strSplit nm (".")).headD nm, success⟩

/-- The joined load phase over all files (a fail-fast `Promise.all`). -/
def loadFiles (options : Options) : List (FileEntry × Semver) → Except String (List MigrationFile)
  | [] => .ok []
  | p :: rest =>
    match loadOne options p with
    | .error msg => .error msg
    | .ok m => (loadFiles options rest).map (fun ms => m :: ms)

/-- The `gather` function from the source: filter the enumeration by delimiter,
validate versions (coercion + duplicate check), load every file, and
return the descriptors sorted by version. -/
def gather (options : Options) (entries : List FileEntry) : Except String (List MigrationFile) :=
  match checkVersions options (entries.filter (passesFilter options)) [] with
  | .error msg => .error msg
  | .ok versions =>
    match loadFiles options ((entries.filter (passesFilter options)).zip versions) with
    | .error msg => .error msg
    | .ok contents => .ok (sortMigrationFiles contents)

/-- One `printMigration` console line, kept structurally: the migration
skipped as already run, the dry-run skip line, or the success/failure
line after an execution (`ran v true` is the success line, `ran v false`
the failure line; chalk formatting and the timing string are display
detail). -/
inductive LogEvent where
  | skippedDone (v : Semver)
  | dryRunSkip (v : Semver)
  | ran (v : Semver) (success : Bool)
deriving DecidableEq, Repr

/-- The run-scoped state threaded through `runMigrations`: the remote
collection, the `Timestamp.now()` clock, the versions whose procedure was
invoked (in invocation order), and the console log. -/
structure RunState where
  store : Store
  clock : Nat
  invoked : List Semver
  log : List LogEvent
deriving DecidableEq, Repr

/-- The key `getIdFromMigration`: the source keys the remote document by the
sha-256 digest of the version string; the digest is deterministic and
collision-free on normalized versions, so it is modelled as the version
itself. -/
def getIdFromMigration (m : MigrationFile) : Semver := m.version

/-- The skip test of `runMigrations`:
`!options.ignoreRemote && remote && remote.status === Successful`. -/
def alreadyRun (options : Options) (store : Store) (m : MigrationFile) : Bool :=
  !options.ignoreRemote &&
    (match storeGet store (getIdFromMigration m) with
     | some r => match r.status with
       | .successful => true
       | .failed => false
     | none => false)

/-- The `runMigrations` engine from the source. Per migration: read the remote
document; skip when a successful record exists and the remote is not
ignored; under `dryRun` report and end the whole run; otherwise invoke
the procedure, and in the `finally` block write a result record carrying
the current `Timestamp.now()` and the outcome status. A rejection is
caught, and the `finally` block then throws
`new Error('⚠️ Skipping next migrations')`, which ends the run as an
error (superseding the `break`). -/
def runMigrations (migrations : List MigrationFile) (options : Options)
    (st : RunState) : RunState × Except String Unit :=
  match migrations with
  | [] => (st, .ok ())
  | m :: rest =>
    if alreadyRun options st.store m then
      runMigrations rest options
        { st with log := st.log ++ [.skippedDone m.version] }
    else if options.dryRun then
      ({ st with log := st.log ++ [.dryRunSkip m.version] }, .ok ())
    else
      let result : MigrationResult :=
        ⟨st.clock, m.version, if m.fn then .successful else .failed⟩
      let st2 : RunState :=
        ⟨storeSet st.store (getIdFromMigration m) result, st.clock + 1,
         st.invoked ++ [m.version], st.log ++ [.ran m.version m.fn]⟩
      if m.fn then runMigrations rest options st2
      else (st2, .error ("⚠️ Skipping next migrations"))

/-- The `--only` token parsing in `migrate`: each token is coerced,
failing on the first unparseable one. -/
def parseSingles : List String → Except String (List Semver)
  | [] => .ok []
  | t :: ts =>
    match coerce t with
    | none => .error (("Invalid version specified: \"") ++ t ++ ("\". Could not parse."))
    | some v => (parseSingles ts).map (fun vs => v :: vs)

/-- The `--only` selection in `migrate`: each parsed version is looked up
among the discovered descriptors, failing on the first absent one. -/
def selectSingles (migrations : List MigrationFile) : List Semver → Except String (List MigrationFile)
  | [] => .ok []
  | v :: vs =>
    match migrations.find? (fun m => decide (m.version = v)) with
    | none => .error (("Version \"") ++ showVersion v ++ ("\" specified in --only does not exist in as migration."))
    | some m => (selectSingles migrations vs).map (fun ms => m :: ms)

/-- The body of `migrate`'s `try` block, after the defaults were merged:
discovery, the optional `--only` projection (parsed, selected and
re-sorted), then the sequential run. Every thrown error is the caught
error that `migrate` reports before `process.exit(1)`. -/
def migrateCore (merged : Options) (single : Option (List String))
    (entries : List FileEntry) (store : Store) (clock : Nat) :
    RunState × Except String Unit :=
  match gather merged entries with
  | .error msg => (⟨store, clock, [], []⟩, .error msg)
  | .ok migrations =>
    match single with
    | none => runMigrations migrations merged ⟨store, clock, [], []⟩
    | some tokens =>
      match parseSingles tokens with
      | .error msg => (⟨store, clock, [], []⟩, .error msg)
      | .ok vs =>
        match selectSingles migrations vs with
        | .error msg => (⟨store, clock, [], []⟩, .error msg)
        | .ok filtered =>
          runMigrations (sortMigrationFiles filtered) merged ⟨store, clock, [], []⟩

/-- The observable outcome of one `migrate` call: the module-level
`defaults` object after the call (mutated by `Object.assign`), the merged
options the run used, the remote collection, clock, invocation list and
log at the end, and whether the call ended normally or was terminated by
a caught error (`console.error` + `process.exit(1)`). -/
structure RunResult where
  defaults : Options
  options : Options
  store : Store
  clock : Nat
  invoked : List Semver
  log : List LogEvent
  outcome : Except String Unit
deriving Repr

/-- The `migrate` entry point from the source: merge the options into the module-level
`defaults` (mutating it), gather, optionally project to `options?.single`,
and run; any thrown error is caught and surfaced as a terminating
`process.exit(1)`. -/
def migrate (defs : Options) (opts : Option PartialOptions)
    (entries : List FileEntry) (store : Store) (clock : Nat) : RunResult :=
  let merged := mergeOptions defs opts
  let res := migrateCore merged (singleTokens opts) entries store clock
  { defaults := merged, options := merged, store := res.1.store,
    clock := res.1.clock, invoked := res.1.invoked, log := res.1.log,
    outcome := res.2 }

/-- Occurrences of a version in a list of versions. -/
def vcount (v : Semver) (l : List Semver) : Nat :=
  l.countP (fun x => decide (x = v))

/-- The post-write state after executing migration `m` from state `st`. -/
def execState (m : MigrationFile) (st : RunState) : RunState :=
  ⟨storeSet st.store (getIdFromMigration m)
      ⟨st.clock, m.version, if m.fn then .successful else .failed⟩,
    st.clock + 1, st.invoked ++ [m.version], st.log ++ [.ran m.version m.fn]⟩

/-- The value of an `Except`, when it holds one. -/
def okValue {ε α : Type} : Except ε α → Option α
  | .ok a => some a
  | .error _ => none

/-- The version an entry's raw token coerces to (total helper; only used
when coercion is known to succeed). -/
def extractVersion (options : Options) (e : FileEntry) : Semver :=
  (coerceOf options e).getD ⟨0, 0, 0⟩

/-- The console lines a dry run produces: one skip line per
already-successful migration until the first pending one, which is
reported as skipped-due-to-dry-run and ends the run. Auxiliary used to
state C4. -/
def dryRunLog (options : Options) (store : Store) : List MigrationFile → List LogEvent
  | [] => []
  | m :: rest =>
    if alreadyRun options store m then
      .skippedDone m.version :: dryRunLog options store rest
    else [.dryRunSkip m.version]

theorem semverLt_iff {a b : Semver} :
    semverLt a b = true ↔
      (a.major < b.major ∨ (a.major = b.major ∧
        (a.minor < b.minor ∨ (a.minor = b.minor ∧ a.patch < b.patch)))) := by
  simp [semverLt]

theorem semverLt_eq_false_iff {a b : Semver} :
    semverLt a b = false ↔
      ¬ (a.major < b.major ∨ (a.major = b.major ∧
        (a.minor < b.minor ∨ (a.minor = b.minor ∧ a.patch < b.patch)))) := by
  rw [← semverLt_iff]
  simp

theorem semverLt_asymm {a b : Semver} (h : semverLt a b = true) :
    semverLt b a = false := by
  rw [semverLt_iff] at h
  rw [semverLt_eq_false_iff]
  omega

theorem semverLt_trans {a b c : Semver} (h1 : semverLt a b = true)
    (h2 : semverLt b c = true) : semverLt a c = true := by
  rw [semverLt_iff] at h1 h2 ⊢
  omega

theorem semver_eq_of_not_lt {a b : Semver} (h1 : semverLt a b = false)
    (h2 : semverLt b a = false) : a = b := by
  rw [semverLt_eq_false_iff] at h1 h2
  cases a
  cases b
  simp only [Semver.mk.injEq]
  simp only at h1 h2
  omega

theorem semverLe_iff_not_lt {a b : Semver} :
    semverLe a b = true ↔ semverLt b a = false := by
  simp [semverLe, semverGt]

theorem semverLe_refl (a : Semver) : semverLe a a = true := by
  rw [semverLe_iff_not_lt, semverLt_eq_false_iff]
  omega

theorem semverLe_trans {a b c : Semver} (h1 : semverLe a b = true)
    (h2 : semverLe b c = true) : semverLe a c = true := by
  rw [semverLe_iff_not_lt, semverLt_eq_false_iff] at h1 h2 ⊢
  omega

theorem semverLe_of_lt {a b : Semver} (h : semverLt a b = true) :
    semverLe a b = true := by
  rw [semverLe_iff_not_lt]
  exact semverLt_asymm h

theorem semverLt_of_le_of_ne {a b : Semver} (h : semverLe a b = true)
    (hne : a ≠ b) : semverLt a b = true := by
  rw [semverLe_iff_not_lt] at h
  cases hab : semverLt a b
  · exact absurd (semver_eq_of_not_lt hab h) hne
  · rfl

theorem storeGet_storeSet_self (s : Store) (k : Semver) (r : MigrationResult) :
    storeGet (storeSet s k r) k = some r := by
  induction s with
  | nil => simp [storeSet, storeGet]
  | cons hd t ih =>
    obtain ⟨k0, r0⟩ := hd
    by_cases hk : k0 = k
    · simp [storeSet, hk, storeGet]
    · simp [storeSet, hk, storeGet, ih]

theorem storeGet_storeSet_ne (s : Store) (k k' : Semver) (r : MigrationResult)
    (h : k' ≠ k) : storeGet (storeSet s k r) k' = storeGet s k' := by
  have hkk' : k ≠ k' := fun e => h e.symm
  induction s with
  | nil => simp [storeSet, storeGet, hkk']
  | cons hd t ih =>
    obtain ⟨k0, r0⟩ := hd
    by_cases hk : k0 = k
    · subst hk
      simp [storeSet, storeGet, hkk']
    · simp [storeSet, hk, storeGet, ih]

theorem keyEntries_storeSet (s : Store) (k : Semver) (r : MigrationResult) :
    keyEntries (storeSet s k r) k = max 1 (keyEntries s k) := by
  induction s with
  | nil => simp [storeSet, keyEntries]
  | cons hd t ih =>
    obtain ⟨k0, r0⟩ := hd
    by_cases hk : k0 = k
    · subst hk
      simp [storeSet, keyEntries, List.filter_cons]
      try omega
    · have hdec : (decide (k0 = k)) = false := by simp [hk]
      simp only [keyEntries] at ih
      simp only [storeSet, if_neg hk, keyEntries, List.filter_cons, hdec]
      simpa using ih

theorem insertSorted_perm (m : MigrationFile) (l : List MigrationFile) :
    (insertSorted m l).Perm (m :: l) := by
  induction l with
  | nil => simp [insertSorted]
  | cons x xs ih =>
    by_cases h : semverGt m.version x.version = true
    · simp only [insertSorted, if_pos h]
      exact (ih.cons x).trans (List.Perm.swap m x xs)
    · simp only [insertSorted, if_neg h]
      exact List.Perm.refl _

theorem sortMigrationFiles_perm (l : List MigrationFile) :
    (sortMigrationFiles l).Perm l := by
  induction l with
  | nil => simp [sortMigrationFiles]
  | cons x xs ih =>
    exact (insertSorted_perm x (sortMigrationFiles xs)).trans (ih.cons x)

theorem insertSorted_pairwise (m : MigrationFile) (l : List MigrationFile)
    (h : l.Pairwise fileLe) : (insertSorted m l).Pairwise fileLe := by
  induction l with
  | nil => simp [insertSorted, List.Pairwise.nil]
  | cons x xs ih =>
    rcases h with _ | ⟨hx, hxs⟩
    by_cases hgt : semverGt m.version x.version = true
    · simp only [insertSorted, if_pos hgt]
      refine List.Pairwise.cons ?_ (ih hxs)
      intro b hb
      have hb' := (insertSorted_perm m xs).mem_iff.mp hb
      rcases List.mem_cons.mp hb' with hbm | hbxs
      · subst hbm
        exact semverLe_of_lt hgt
      · exact hx b hbxs
    · simp only [insertSorted, if_neg hgt]
      have hmx : fileLe m x := by
        unfold fileLe
        rw [semverLe_iff_not_lt]
        unfold semverGt at hgt
        exact Bool.not_eq_true _ ▸ (by simpa using hgt)
      refine List.Pairwise.cons ?_ (List.Pairwise.cons hx hxs)
      intro b hb
      rcases List.mem_cons.mp hb with hbx | hbxs
      · exact hbx ▸ hmx
      · exact semverLe_trans hmx (hx b hbxs)

theorem sortMigrationFiles_pairwise (l : List MigrationFile) :
    (sortMigrationFiles l).Pairwise fileLe := by
  induction l with
  | nil => simp [sortMigrationFiles]
  | cons x xs ih => exact insertSorted_pairwise x (sortMigrationFiles xs) ih

theorem sortMigrationFiles_pairwise_lt (l : List MigrationFile)
    (h : (l.map (fun m => m.version)).Nodup) :
    (sortMigrationFiles l).Pairwise fileLt := by
  have hperm : ((sortMigrationFiles l).map (fun m => m.version)).Perm
      (l.map (fun m => m.version)) := (sortMigrationFiles_perm l).map _
  have hnd : ((sortMigrationFiles l).map (fun m => m.version)).Nodup :=
    hperm.nodup_iff.mpr h
  have hne : (sortMigrationFiles l).Pairwise (fun a b => a.version ≠ b.version) := by
    exact (List.pairwise_map).mp hnd
  have hle := sortMigrationFiles_pairwise l
  have := hle.and hne
  exact this.imp (fun {a b} hab => semverLt_of_le_of_ne hab.1 hab.2)

instance : IsAntisymm MigrationFile fileLt where
  antisymm := by
    intro a b hab hba
    unfold fileLt at hab hba
    have := semverLt_asymm hab
    rw [this] at hba
    cases hba

theorem sorted_lt_eq_of_perm {l1 l2 : List MigrationFile} (hp : l1.Perm l2)
    (h1 : l1.Pairwise fileLt) (h2 : l2.Pairwise fileLt) : l1 = l2 :=
  List.eq_of_perm_of_sorted hp h1 h2

theorem vcount_append (v : Semver) (l1 l2 : List Semver) :
    vcount v (l1 ++ l2) = vcount v l1 + vcount v l2 := by
  simp [vcount, List.countP_append]

theorem vcount_single_self (v : Semver) : vcount v [v] = 1 := by
  simp [vcount]

theorem vcount_single_ne (v w : Semver) (h : w ≠ v) : vcount v [w] = 0 := by
  simp [vcount, h]

theorem vcount_nil (v : Semver) : vcount v [] = 0 := rfl

theorem vcount_eq_zero_iff (v : Semver) (l : List Semver) :
    vcount v l = 0 ↔ v ∉ l := by
  simp [vcount, List.countP_eq_zero]
  constructor
  · intro h hv
    exact h v hv rfl
  · intro h a ha he
    exact h (he ▸ ha)

theorem runMigrations_cons_skip (m : MigrationFile) (rest : List MigrationFile)
    (options : Options) (st : RunState) (h : alreadyRun options st.store m = true) :
    runMigrations (m :: rest) options st =
      runMigrations rest options { st with log := st.log ++ [.skippedDone m.version] } := by
  simp [runMigrations, h]

theorem runMigrations_cons_dry (m : MigrationFile) (rest : List MigrationFile)
    (options : Options) (st : RunState) (h : alreadyRun options st.store m = false)
    (hdry : options.dryRun = true) :
    runMigrations (m :: rest) options st =
      ({ st with log := st.log ++ [.dryRunSkip m.version] }, .ok ()) := by
  simp [runMigrations, h, hdry]

theorem runMigrations_cons_exec (m : MigrationFile) (rest : List MigrationFile)
    (options : Options) (st : RunState) (h : alreadyRun options st.store m = false)
    (hdry : options.dryRun = false) :
    runMigrations (m :: rest) options st =
      (if m.fn then runMigrations rest options (execState m st)
       else (execState m st, .error ("⚠️ Skipping next migrations"))) := by
  simp [runMigrations, h, hdry, execState]

theorem alreadyRun_of_successful (options : Options) (st : RunState)
    (m : MigrationFile) (r : MigrationResult) (hIR : options.ignoreRemote = false)
    (hget : storeGet st.store m.version = some r)
    (hst : r.status = .successful) : alreadyRun options st.store m = true := by
  simp [alreadyRun, hIR, getIdFromMigration, hget, hst]

/-- While the remote is not ignored, a key holding a successful record is
never touched again by the run: its record survives unchanged and its
version is never invoked (this is the skip path of the engine). -/
theorem runMigrations_preserves_successful (migrations : List MigrationFile)
    (options : Options) (st : RunState) (v : Semver) (r : MigrationResult)
    (hIR : options.ignoreRemote = false)
    (hget : storeGet st.store v = some r)
    (hst : r.status = .successful) :
    storeGet (runMigrations migrations options st).1.store v = some r ∧
      vcount v (runMigrations migrations options st).1.invoked = vcount v st.invoked := by
  induction migrations generalizing st with
  | nil => simp [runMigrations, hget]
  | cons m rest ih =>
    have hne_all : alreadyRun options st.store m = false → m.version ≠ v := by
      intro hsk he
      rw [alreadyRun_of_successful options st m r hIR (he ▸ hget) hst] at hsk
      cases hsk
    cases hsk : alreadyRun options st.store m with
    | true =>
      rw [runMigrations_cons_skip m rest options st hsk]
      exact ih { st with log := st.log ++ [.skippedDone m.version] } hget
    | false =>
      have hne : m.version ≠ v := hne_all hsk
      cases hdry : options.dryRun with
      | true =>
        rw [runMigrations_cons_dry m rest options st hsk hdry]
        exact ⟨hget, rfl⟩
      | false =>
        rw [runMigrations_cons_exec m rest options st hsk hdry]
        have hget2 : storeGet (execState m st).store v = some r := by
          simpa [execState, getIdFromMigration] using
            (storeGet_storeSet_ne st.store m.version v _ (fun e => hne e.symm)).trans hget
        have hcnt2 : vcount v (execState m st).invoked = vcount v st.invoked := by
          simp [execState, vcount_append, vcount_single_ne v m.version hne]
        cases hfn : m.fn with
        | true =>
          rw [if_pos rfl]
          obtain ⟨h1, h2⟩ := ih (execState m st) hget2
          exact ⟨h1, h2.trans hcnt2⟩
        | false =>
          rw [if_neg (by simp)]
          exact ⟨hget2, hcnt2⟩

/-- The invocations a run adds form a sublist of the versions of the
migrations it was given, in list order. -/
theorem runMigrations_invoked_delta (migrations : List MigrationFile)
    (options : Options) (st : RunState) :
    ∃ ds, (runMigrations migrations options st).1.invoked = st.invoked ++ ds ∧
      ds.Sublist (migrations.map (fun m => m.version)) := by
  induction migrations generalizing st with
  | nil => exact ⟨[], by simp [runMigrations]⟩
  | cons m rest ih =>
    cases hsk : alreadyRun options st.store m with
    | true =>
      rw [runMigrations_cons_skip m rest options st hsk]
      obtain ⟨ds, h1, h2⟩ := ih { st with log := st.log ++ [.skippedDone m.version] }
      exact ⟨ds, h1, h2.cons m.version⟩
    | false =>
      cases hdry : options.dryRun with
      | true =>
        rw [runMigrations_cons_dry m rest options st hsk hdry]
        exact ⟨[], by simp, List.nil_sublist _⟩
      | false =>
        rw [runMigrations_cons_exec m rest options st hsk hdry]
        cases hfn : m.fn with
        | true =>
          rw [if_pos rfl]
          obtain ⟨ds, h1, h2⟩ := ih (execState m st)
          refine ⟨m.version :: ds, ?_, h2.cons₂ m.version⟩
          rw [h1]
          simp [execState]
        | false =>
          rw [if_neg (by simp)]
          exact ⟨[m.version], by simp [execState], (List.nil_sublist _).cons₂ m.version⟩

theorem runMigrations_vcount_le (migrations : List MigrationFile)
    (options : Options) (st : RunState) (v : Semver) :
    vcount v (runMigrations migrations options st).1.invoked ≤
      vcount v st.invoked + vcount v (migrations.map (fun m => m.version)) := by
  obtain ⟨ds, h1, h2⟩ := runMigrations_invoked_delta migrations options st
  rw [h1, vcount_append]
  have := List.Sublist.countP_le (fun x => decide (x = v)) h2
  exact Nat.add_le_add_left this _

/-- While the remote is not ignored, a run invokes any given version at
most once beyond what was already invoked: a successful execution writes
the record that makes every later occurrence skip, and a failed one
halts the run. -/
theorem runMigrations_vcount_force_false (migrations : List MigrationFile)
    (options : Options) (st : RunState) (v : Semver)
    (hIR : options.ignoreRemote = false) :
    vcount v (runMigrations migrations options st).1.invoked ≤
      vcount v st.invoked + 1 := by
  induction migrations generalizing st with
  | nil =>
    simp [runMigrations]
  | cons m rest ih =>
    cases hsk : alreadyRun options st.store m with
    | true =>
      rw [runMigrations_cons_skip m rest options st hsk]
      exact ih { st with log := st.log ++ [.skippedDone m.version] }
    | false =>
      cases hdry : options.dryRun with
      | true =>
        rw [runMigrations_cons_dry m rest options st hsk hdry]
        simp
      | false =>
        rw [runMigrations_cons_exec m rest options st hsk hdry]
        by_cases hmv : m.version = v
        · subst hmv
          have hcnt2 : vcount m.version (execState m st).invoked =
              vcount m.version st.invoked + 1 := by
            simp [execState, vcount_append, vcount_single_self]
          cases hfn : m.fn with
          | true =>
            rw [if_pos rfl]
            have hget2 : storeGet (execState m st).store m.version =
                some ⟨st.clock, m.version, if m.fn then .successful else .failed⟩ := by
              simpa [execState, getIdFromMigration] using
                storeGet_storeSet_self st.store m.version _
            have hstat : (⟨st.clock, m.version,
                if m.fn then .successful else .failed⟩ : MigrationResult).status =
                .successful := by
              simp [hfn]
            obtain ⟨_, h2⟩ := runMigrations_preserves_successful rest options
              (execState m st) m.version _ hIR hget2 hstat
            rw [h2, hcnt2]
          | false =>
            rw [if_neg (by simp)]
            rw [hcnt2]
        · cases hfn : m.fn with
          | true =>
            rw [if_pos rfl]
            have := ih (execState m st)
            have hcnt2 : vcount v (execState m st).invoked = vcount v st.invoked := by
              simp [execState, vcount_append, vcount_single_ne v m.version hmv]
            rw [hcnt2] at this
            exact this
          | false =>
            rw [if_neg (by simp)]
            have hcnt2 : vcount v (execState m st).invoked = vcount v st.invoked := by
              simp [execState, vcount_append, vcount_single_ne v m.version hmv]
            rw [hcnt2]
            omega

theorem checkVersions_ok_iff (options : Options) (files : List FileEntry)
    (acc vs : List Semver) :
    checkVersions options files acc = .ok vs ↔
      ∃ ws, files.map (coerceOf options) = ws.map some ∧ vs = acc ++ ws ∧
        ws.Nodup ∧ ∀ w ∈ ws, w ∉ acc := by
  induction files generalizing acc with
  | nil =>
    constructor
    · intro h
      have hv : acc = vs := by simpa [checkVersions] using h
      exact ⟨[], by simp, by simp [hv], List.nodup_nil, by simp⟩
    · rintro ⟨ws, hmap, hvs, -, -⟩
      have hw : ws = [] := by simpa using hmap.symm
      subst hw
      simp [checkVersions, hvs]
  | cons e es ih =>
    cases hc : coerceOf options e with
    | none =>
      constructor
      · intro h
        simp [checkVersions, hc] at h
      · rintro ⟨ws, hmap, -, -, -⟩
        cases ws with
        | nil => simp at hmap
        | cons w ws2 =>
          simp only [List.map_cons, List.cons.injEq] at hmap
          rw [hc] at hmap
          exact absurd hmap.1 (by simp)
    | some v =>
      by_cases hmem : v ∈ acc
      · constructor
        · intro h
          simp [checkVersions, hc, hmem] at h
        · rintro ⟨ws, hmap, -, -, hnotin⟩
          cases ws with
          | nil => simp at hmap
          | cons w ws2 =>
            simp only [List.map_cons, List.cons.injEq] at hmap
            rw [hc] at hmap
            have hw : v = w := by simpa using hmap.1
            exact absurd (hw ▸ hmem) (hnotin w (List.mem_cons_self w ws2))
      · have hunf : checkVersions options (e :: es) acc =
            checkVersions options es (acc ++ [v]) := by
          simp [checkVersions, hc, hmem]
        rw [hunf, ih]
        constructor
        · rintro ⟨ws2, hmap, hvs, hnd, hnotin⟩
          refine ⟨v :: ws2, ?_, ?_, ?_, ?_⟩
          · simp [hc, hmap]
          · simp [hvs]
          · refine List.nodup_cons.mpr ⟨?_, hnd⟩
            intro hvmem
            exact (hnotin v hvmem) (by simp)
          · intro w hw
            rcases List.mem_cons.mp hw with hw1 | hw2
            · subst hw1
              exact hmem
            · intro hwacc
              exact (hnotin w hw2) (List.mem_append.mpr (Or.inl hwacc))
        · rintro ⟨ws, hmap, hvs, hnd, hnotin⟩
          cases ws with
          | nil => simp at hmap
          | cons w ws2 =>
            simp only [List.map_cons, List.cons.injEq] at hmap
            rw [hc] at hmap
            have hw : w = v := by
              have := hmap.1
              simpa using this.symm
            subst hw
            refine ⟨ws2, hmap.2, by simpa using hvs, (List.nodup_cons.mp hnd).2, ?_⟩
            intro w2 hw2 hwmem
            rcases List.mem_append.mp hwmem with h1 | h2
            · exact (hnotin w2 (List.mem_cons_of_mem _ hw2)) h1
            · have hw2w : w2 = w := by simpa using h2
              subst hw2w
              exact (List.nodup_cons.mp hnd).1 hw2

theorem loadOne_ok_version (options : Options) (p : FileEntry × Semver)
    (m : MigrationFile) (h : loadOne options p = .ok m) : m.version = p.2 := by
  unfold loadOne at h
  cases hme : p.1.migrationExport with
  | none =>
    rw [hme] at h
    simp at h
  | some b =>
    rw [hme] at h
    cases hh : ((strSplit p.1.base options.delimiter).drop 1).head? with
    | none =>
      rw [hh] at h
      simp at h
    | some nm =>
      rw [hh] at h
      simp only [Except.ok.injEq] at h
      rw [← h]

theorem loadFiles_ok_iff (options : Options) (pairs : List (FileEntry × Semver))
    (ms : List MigrationFile) :
    loadFiles options pairs = .ok ms ↔
      pairs.map (loadOne options) = ms.map Except.ok := by
  induction pairs generalizing ms with
  | nil =>
    constructor
    · intro h
      have hm : ms = [] := by simpa [loadFiles] using h
      simp [hm]
    · intro h
      have hm : ms = [] := by
        cases ms with
        | nil => rfl
        | cons m ms2 => simp at h
      simp [loadFiles, hm]
  | cons p ps ih =>
    cases hl : loadOne options p with
    | error msg =>
      constructor
      · intro h
        simp [loadFiles, hl] at h
      · intro h
        cases ms with
        | nil => simp at h
        | cons m ms2 =>
          simp only [List.map_cons, List.cons.injEq] at h
          rw [hl] at h
          exact absurd h.1 (by simp)
    | ok m0 =>
      constructor
      · intro h
        simp only [loadFiles, hl] at h
        cases hrest : loadFiles options ps with
        | error msg =>
          rw [hrest] at h
          simp [Except.map] at h
        | ok ms2 =>
          rw [hrest] at h
          simp only [Except.map, Except.ok.injEq] at h
          rw [← h]
          simp [hl, (ih ms2).mp hrest]
      · intro h
        cases ms with
        | nil => simp at h
        | cons m ms2 =>
          simp only [List.map_cons, List.cons.injEq] at h
          rw [hl] at h
          have hm : m0 = m := by simpa using h.1
          have hrest : loadFiles options ps = .ok ms2 := (ih ms2).mpr h.2
          simp [loadFiles, hl, hrest, Except.map, hm]

theorem loadFiles_ok_versions (options : Options) (pairs : List (FileEntry × Semver))
    (ms : List MigrationFile) (h : loadFiles options pairs = .ok ms) :
    ms.map (fun m => m.version) = pairs.map Prod.snd := by
  induction pairs generalizing ms with
  | nil =>
    have hm : ms = [] := by simpa [loadFiles] using h
    simp [hm]
  | cons p ps ih =>
    cases hl : loadOne options p with
    | error msg => simp [loadFiles, hl] at h
    | ok m0 =>
      simp only [loadFiles, hl] at h
      cases hrest : loadFiles options ps with
      | error msg =>
        rw [hrest] at h
        simp [Except.map] at h
      | ok ms2 =>
        rw [hrest] at h
        simp only [Except.map, Except.ok.injEq] at h
        rw [← h]
        simp [loadOne_ok_version options p m0 hl, ih ms2 hrest]

theorem zip_map_snd_eq {α β : Type} (l1 : List α) (l2 : List β)
    (h : l1.length = l2.length) : (l1.zip l2).map Prod.snd = l2 := by
  induction l1 generalizing l2 with
  | nil =>
    cases l2 with
    | nil => simp
    | cons b t => simp at h
  | cons a l ih =>
    cases l2 with
    | nil => simp at h
    | cons b t =>
      simp only [List.zip_cons_cons, List.map_cons]
      rw [ih t (by simpa using h)]

theorem gather_ok_elim (options : Options) (entries : List FileEntry)
    (ms : List MigrationFile) (h : gather options entries = .ok ms) :
    ∃ ws contents,
      checkVersions options (entries.filter (passesFilter options)) [] = .ok ws ∧
      loadFiles options ((entries.filter (passesFilter options)).zip ws) = .ok contents ∧
      ms = sortMigrationFiles contents := by
  cases hc : checkVersions options (entries.filter (passesFilter options)) [] with
  | error msg =>
    simp [gather, hc] at h
  | ok ws =>
    cases hl : loadFiles options ((entries.filter (passesFilter options)).zip ws) with
    | error msg =>
      simp [gather, hc, hl] at h
    | ok contents =>
      refine ⟨ws, contents, rfl, hl, ?_⟩
      simp only [gather, hc, hl, Except.ok.injEq] at h
      exact h.symm

theorem gather_contents_versions (options : Options) (entries : List FileEntry)
    (ws : List Semver) (contents : List MigrationFile)
    (hc : checkVersions options (entries.filter (passesFilter options)) [] = .ok ws)
    (hl : loadFiles options ((entries.filter (passesFilter options)).zip ws) = .ok contents) :
    contents.map (fun m => m.version) = ws ∧ ws.Nodup := by
  obtain ⟨ws0, hmap, hvs, hnd, -⟩ := (checkVersions_ok_iff options _ [] ws).mp hc
  have hws : ws = ws0 := by simpa using hvs
  subst hws
  have hlen : (entries.filter (passesFilter options)).length = ws.length := by
    have := congrArg List.length hmap
    simpa using this
  refine ⟨?_, hnd⟩
  rw [loadFiles_ok_versions options _ contents hl]
  exact zip_map_snd_eq _ _ hlen

theorem gather_ok_sorted (options : Options) (entries : List FileEntry)
    (ms : List MigrationFile) (h : gather options entries = .ok ms) :
    ms.Pairwise fileLt := by
  obtain ⟨ws, contents, hc, hl, hms⟩ := gather_ok_elim options entries ms h
  obtain ⟨hver, hnd⟩ := gather_contents_versions options entries ws contents hc hl
  rw [hms]
  exact sortMigrationFiles_pairwise_lt contents (hver ▸ hnd)

theorem gather_ok_nodup (options : Options) (entries : List FileEntry)
    (ms : List MigrationFile) (h : gather options entries = .ok ms) :
    (ms.map (fun m => m.version)).Nodup := by
  obtain ⟨ws, contents, hc, hl, hms⟩ := gather_ok_elim options entries ms h
  obtain ⟨hver, hnd⟩ := gather_contents_versions options entries ws contents hc hl
  have hperm : (ms.map (fun m => m.version)).Perm (contents.map (fun m => m.version)) := by
    rw [hms]
    exact (sortMigrationFiles_perm contents).map _
  exact hperm.nodup_iff.mpr (hver ▸ hnd)

theorem all_some_eq_map {α : Type} (l : List (Option α)) (h : ∀ x ∈ l, x ≠ none) :
    ∃ ws : List α, l = ws.map some := by
  induction l with
  | nil => exact ⟨[], rfl⟩
  | cons x xs ih =>
    obtain ⟨ws, hws⟩ := ih (fun y hy => h y (List.mem_cons_of_mem x hy))
    cases x with
    | none => exact absurd rfl (h none (List.mem_cons_self none xs))
    | some a => exact ⟨a :: ws, by simp [hws]⟩

theorem all_ok_eq_map {ε α : Type} (l : List (Except ε α))
    (h : ∀ x ∈ l, ∃ a, x = .ok a) : ∃ ms : List α, l = ms.map Except.ok := by
  induction l with
  | nil => exact ⟨[], rfl⟩
  | cons x xs ih =>
    obtain ⟨ms, hms⟩ := ih (fun y hy => h y (List.mem_cons_of_mem x hy))
    obtain ⟨a, ha⟩ := h x (List.mem_cons_self x xs)
    exact ⟨a :: ms, by simp [hms, ha]⟩

theorem perm_of_map_perm {α β : Type} (f : α → β) (g : β → Option α)
    (hg : ∀ a, g (f a) = some a) {l1 l2 : List α}
    (h : (l1.map f).Perm (l2.map f)) : l1.Perm l2 := by
  have h2 := h.filterMap g
  rw [List.filterMap_map, List.filterMap_map] at h2
  have he : (g ∘ f) = some := funext hg
  rw [he, List.filterMap_some, List.filterMap_some] at h2
  exact h2

theorem zip_eq_map_extract (options : Options) (files : List FileEntry)
    (ws : List Semver) (h : files.map (coerceOf options) = ws.map some) :
    files.zip ws = files.map (fun e => (e, extractVersion options e)) := by
  induction files generalizing ws with
  | nil =>
    cases ws with
    | nil => simp
    | cons w t => simp at h
  | cons e es ih =>
    cases ws with
    | nil => simp at h
    | cons w t =>
      simp only [List.map_cons, List.cons.injEq] at h
      have hw : extractVersion options e = w := by simp [extractVersion, h.1]
      simp only [List.zip_cons_cons, List.map_cons, hw]
      rw [ih t h.2]

/-- Discovery is insensitive to the enumeration order: a successful
`gather` returns the same (version-sorted) list on any permutation of the
directory enumeration. -/
theorem gather_perm_invariant (options : Options) (entries entries' : List FileEntry)
    (ms : List MigrationFile) (h : gather options entries = .ok ms)
    (hp : entries.Perm entries') : gather options entries' = .ok ms := by
  obtain ⟨ws, contents, hc, hl, hms⟩ := gather_ok_elim options entries ms h
  obtain ⟨hver, hndws⟩ := gather_contents_versions options entries ws contents hc hl
  have hfp : (entries.filter (passesFilter options)).Perm
      (entries'.filter (passesFilter options)) := hp.filter _
  obtain ⟨ws0, hmap, hvs, -, -⟩ :=
    (checkVersions_ok_iff options (entries.filter (passesFilter options)) [] ws).mp hc
  have hws0 : ws = ws0 := by simpa using hvs
  subst hws0
  have hmapperm : ((entries'.filter (passesFilter options)).map (coerceOf options)).Perm
      ((entries.filter (passesFilter options)).map (coerceOf options)) :=
    (hfp.symm).map _
  have hallsome : ∀ x ∈ (entries'.filter (passesFilter options)).map (coerceOf options),
      x ≠ none := by
    intro x hx
    have hx2 : x ∈ (entries.filter (passesFilter options)).map (coerceOf options) :=
      hmapperm.subset hx
    rw [hmap] at hx2
    obtain ⟨a, -, ha⟩ := List.mem_map.mp hx2
    rw [← ha]
    simp
  obtain ⟨ws', hmap'⟩ := all_some_eq_map _ hallsome
  have hwperm : ws'.Perm ws := by
    refine perm_of_map_perm some id (fun a => rfl) ?_
    rw [← hmap', ← hmap]
    exact hmapperm
  have hc' : checkVersions options (entries'.filter (passesFilter options)) [] = .ok ws' := by
    refine (checkVersions_ok_iff options _ [] ws').mpr
      ⟨ws', hmap', by simp, hwperm.nodup_iff.mpr hndws, by simp⟩
  have hzip : (entries.filter (passesFilter options)).zip ws =
      (entries.filter (passesFilter options)).map
        (fun e => (e, extractVersion options e)) :=
    zip_eq_map_extract options _ _ hmap
  have hzip' : (entries'.filter (passesFilter options)).zip ws' =
      (entries'.filter (passesFilter options)).map
        (fun e => (e, extractVersion options e)) :=
    zip_eq_map_extract options _ _ hmap'
  have hli := (loadFiles_ok_iff options _ contents).mp hl
  rw [hzip, List.map_map] at hli
  have hperm2 : ((entries'.filter (passesFilter options)).map
      (loadOne options ∘ fun e => (e, extractVersion options e))).Perm
      (contents.map Except.ok) := by
    rw [← hli]
    exact (hfp.symm).map _
  have hallok : ∀ x ∈ (entries'.filter (passesFilter options)).map
      (loadOne options ∘ fun e => (e, extractVersion options e)), ∃ a, x = .ok a := by
    intro x hx
    have hx2 : x ∈ contents.map Except.ok := hperm2.subset hx
    obtain ⟨a, -, ha⟩ := List.mem_map.mp hx2
    exact ⟨a, ha.symm⟩
  obtain ⟨contents', hmap2⟩ := all_ok_eq_map _ hallok
  have hcperm : contents'.Perm contents := by
    refine perm_of_map_perm (Except.ok : MigrationFile → Except String MigrationFile)
      okValue (fun a => rfl) ?_
    rw [← hmap2]
    exact hperm2
  have hl' : loadFiles options ((entries'.filter (passesFilter options)).zip ws') =
      .ok contents' := by
    refine (loadFiles_ok_iff options _ contents').mpr ?_
    rw [hzip', List.map_map, hmap2]
  have hndc : (contents.map (fun m => m.version)).Nodup := hver ▸ hndws
  have hndc' : (contents'.map (fun m => m.version)).Nodup :=
    ((hcperm.map _).nodup_iff).mpr hndc
  have hsorteq : sortMigrationFiles contents' = sortMigrationFiles contents := by
    refine sorted_lt_eq_of_perm ?_ (sortMigrationFiles_pairwise_lt contents' hndc')
      (sortMigrationFiles_pairwise_lt contents hndc)
    exact (sortMigrationFiles_perm contents').trans
      (hcperm.trans (sortMigrationFiles_perm contents).symm)
  show gather options entries' = .ok ms
  simp only [gather, hc', hl', hsorteq, hms]

theorem parseSingles_ok_map (ts : List String) (vs : List Semver)
    (h : parseSingles ts = .ok vs) : ts.map coerce = vs.map some := by
  induction ts generalizing vs with
  | nil =>
    have hv : vs = [] := by simpa [parseSingles] using h
    simp [hv]
  | cons t ts2 ih =>
    cases hc : coerce t with
    | none => simp [parseSingles, hc] at h
    | some v =>
      simp only [parseSingles, hc] at h
      cases hrest : parseSingles ts2 with
      | error msg =>
        rw [hrest] at h
        simp [Except.map] at h
      | ok vs2 =>
        rw [hrest] at h
        simp only [Except.map, Except.ok.injEq] at h
        rw [← h]
        simp [hc, ih vs2 hrest]

theorem map_eq_map_some_filterMap {α β : Type} (f : α → Option β) (l : List α)
    (vs : List β) (h : l.map f = vs.map some) : l.filterMap f = vs := by
  induction l generalizing vs with
  | nil =>
    cases vs with
    | nil => simp
    | cons v t => simp at h
  | cons a l2 ih =>
    cases vs with
    | nil => simp at h
    | cons v t =>
      simp only [List.map_cons, List.cons.injEq] at h
      rw [List.filterMap_cons, h.1]
      simp [ih t h.2]

theorem parseSingles_mem (ts : List String) (vs : List Semver) (t : String)
    (v : Semver) (h : parseSingles ts = .ok vs) (ht : t ∈ ts)
    (hc : coerce t = some v) : v ∈ vs := by
  induction ts generalizing vs with
  | nil => cases ht
  | cons t0 ts2 ih =>
    cases hc0 : coerce t0 with
    | none => simp [parseSingles, hc0] at h
    | some v0 =>
      simp only [parseSingles, hc0] at h
      cases hrest : parseSingles ts2 with
      | error msg =>
        rw [hrest] at h
        simp [Except.map] at h
      | ok vs2 =>
        rw [hrest] at h
        simp only [Except.map, Except.ok.injEq] at h
        rcases List.mem_cons.mp ht with ht0 | ht2
        · subst ht0
          have : v0 = v := by
            rw [hc0] at hc
            simpa using hc
          rw [← h]
          simp [this]
        · rw [← h]
          exact List.mem_cons_of_mem _ (ih vs2 hrest ht2)

theorem parseSingles_all_ok (ts : List String) (vs : List Semver)
    (h : parseSingles ts = .ok vs) : ∀ t ∈ ts, ∃ v, coerce t = some v := by
  intro t ht
  have hmap := parseSingles_ok_map ts vs h
  have : coerce t ∈ ts.map coerce := List.mem_map_of_mem coerce ht
  rw [hmap] at this
  obtain ⟨v, -, hv⟩ := List.mem_map.mp this
  exact ⟨v, hv.symm⟩

theorem selectSingles_versions (ms : List MigrationFile) (vs : List Semver)
    (filtered : List MigrationFile) (h : selectSingles ms vs = .ok filtered) :
    filtered.map (fun m => m.version) = vs := by
  induction vs generalizing filtered with
  | nil =>
    have hf : filtered = [] := by simpa [selectSingles] using h
    simp [hf]
  | cons v vs2 ih =>
    cases hf : ms.find? (fun m => decide (m.version = v)) with
    | none => simp [selectSingles, hf] at h
    | some m =>
      simp only [selectSingles, hf] at h
      cases hrest : selectSingles ms vs2 with
      | error msg =>
        rw [hrest] at h
        simp [Except.map] at h
      | ok fs2 =>
        rw [hrest] at h
        simp only [Except.map, Except.ok.injEq] at h
        have hmv : m.version = v := by
          have := List.find?_some hf
          simpa using this
        rw [← h]
        simp [hmv, ih fs2 hrest]

theorem selectSingles_mem_ms (ms : List MigrationFile) (vs : List Semver)
    (filtered : List MigrationFile) (h : selectSingles ms vs = .ok filtered) :
    ∀ m ∈ filtered, m ∈ ms := by
  induction vs generalizing filtered with
  | nil =>
    have hf : filtered = [] := by simpa [selectSingles] using h
    simp [hf]
  | cons v vs2 ih =>
    cases hf : ms.find? (fun m => decide (m.version = v)) with
    | none => simp [selectSingles, hf] at h
    | some m =>
      simp only [selectSingles, hf] at h
      cases hrest : selectSingles ms vs2 with
      | error msg =>
        rw [hrest] at h
        simp [Except.map] at h
      | ok fs2 =>
        rw [hrest] at h
        simp only [Except.map, Except.ok.injEq] at h
        intro m2 hm2
        rw [← h] at hm2
        rcases List.mem_cons.mp hm2 with hm0 | hm1
        · subst hm0
          exact List.mem_of_find?_eq_some hf
        · exact ih fs2 hrest m2 hm1

theorem selectSingles_absent (ms : List MigrationFile) (vs : List Semver)
    (v : Semver) (hv : v ∈ vs) (habs : ∀ m ∈ ms, m.version ≠ v) :
    ∀ filtered, selectSingles ms vs ≠ .ok filtered := by
  induction vs with
  | nil => cases hv
  | cons v0 vs2 ih =>
    intro filtered h
    rcases List.mem_cons.mp hv with hv0 | hv2
    · subst hv0
      cases hf : ms.find? (fun m => decide (m.version = v)) with
      | none => simp [selectSingles, hf] at h
      | some m =>
        have hmv : m.version = v := by simpa using List.find?_some hf
        exact absurd hmv (habs m (List.mem_of_find?_eq_some hf))
    · cases hf : ms.find? (fun m => decide (m.version = v0)) with
      | none => simp [selectSingles, hf] at h
      | some m =>
        simp only [selectSingles, hf] at h
        cases hrest : selectSingles ms vs2 with
        | error msg =>
          rw [hrest] at h
          simp [Except.map] at h
        | ok fs2 => exact ih hv2 fs2 hrest

theorem vcount_le_one_of_nodup (v : Semver) (l : List Semver) (h : l.Nodup) :
    vcount v l ≤ 1 := by
  induction l with
  | nil => simp [vcount]
  | cons w t ih =>
    obtain ⟨hw, ht⟩ := List.nodup_cons.mp h
    by_cases hwv : w = v
    · subst hwv
      have ht0 : vcount w t = 0 := (vcount_eq_zero_iff w t).mpr hw
      have : vcount w (w :: t) = vcount w t + 1 := by simp [vcount, List.countP_cons]
      omega
    · have : vcount v (w :: t) = vcount v t := by
        simp [vcount, List.countP_cons, hwv]
      rw [this]
      exact ih ht

/-- C1: for every run in which a migration procedure rejects during
execution (reached not-skipped, not a dry run, and its procedure fails),
the engine ends the run right there with the thrown error — so no later
migration in the list is attempted and the invocation list grows only by
the failing version — after writing a `failed` `MigrationResult` under
the failing migration's key; every other key (in particular the
`successful` records of earlier migrations) is left unchanged; and
`migrate` surfaces the run's error as the terminating outcome of the
whole invocation. -/
theorem claim_C1 (m : MigrationFile) (rest : List MigrationFile) (options : Options)
    (st : RunState)
    (hskip : alreadyRun options st.store m = false)
    (hdry : options.dryRun = false)
    (hfail : m.fn = false) :
    runMigrations (m :: rest) options st =
      (execState m st, .error ("⚠️ Skipping next migrations"))
    ∧ storeGet (execState m st).store (getIdFromMigration m) =
        some ⟨st.clock, m.version, .failed⟩
    ∧ (execState m st).invoked = st.invoked ++ [m.version]
    ∧ (∀ k, k ≠ getIdFromMigration m →
        storeGet (execState m st).store k = storeGet st.store k)
    ∧ (∀ defs opts entries store clock ms, mergeOptions defs opts = options →
        singleTokens opts = none → gather options entries = .ok ms →
        (migrate defs opts entries store clock).outcome =
          (runMigrations ms options ⟨store, clock, [], []⟩).2) := by
  refine ⟨?_, ?_, rfl, ?_, ?_⟩
  · rw [runMigrations_cons_exec m rest options st hskip hdry]
    rw [if_neg (by simp [hfail])]
  · simp only [execState, getIdFromMigration]
    rw [storeGet_storeSet_self]
    simp [hfail]
  · intro k hk
    simp only [execState, getIdFromMigration]
    exact storeGet_storeSet_ne st.store m.version k _ hk
  · intro defs opts entries store clock ms hmerge hsingle hgather
    show (migrateCore (mergeOptions defs opts) (singleTokens opts) entries store clock).2 = _
    rw [hmerge, hsingle]
    simp only [migrateCore, hgather]

theorem claim_C1_witness :
    (alreadyRun defaults (⟨[], 0, [], []⟩ : RunState).store ⟨⟨1, 0, 0⟩, ("a"), false⟩ = false
      ∧ defaults.dryRun = false
      ∧ (⟨⟨1, 0, 0⟩, ("a"), false⟩ : MigrationFile).fn = false)
    ∧ runMigrations [⟨⟨1, 0, 0⟩, ("a"), false⟩, ⟨⟨2, 0, 0⟩, ("b"), true⟩] defaults
        ⟨[], 0, [], []⟩ =
        (execState ⟨⟨1, 0, 0⟩, ("a"), false⟩ ⟨[], 0, [], []⟩,
          .error ("⚠️ Skipping next migrations")) :=
  ⟨⟨rfl, rfl, rfl⟩,
    (claim_C1 ⟨⟨1, 0, 0⟩, ("a"), false⟩ [⟨⟨2, 0, 0⟩, ("b"), true⟩] defaults
      ⟨[], 0, [], []⟩ rfl rfl rfl).1⟩

/-- C2: a migration whose remote record exists with status `successful`
is, when `ignoreRemote` is false, never invoked during the run and its
record is left unchanged — whatever the other options are, including a
`single`/`--only` selection. -/
theorem claim_C2 (defs : Options) (opts : Option PartialOptions)
    (entries : List FileEntry) (store : Store) (clock : Nat) (v : Semver)
    (r : MigrationResult)
    (hIR : (mergeOptions defs opts).ignoreRemote = false)
    (hget : storeGet store v = some r)
    (hst : r.status = .successful) :
    storeGet (migrate defs opts entries store clock).store v = some r
    ∧ v ∉ (migrate defs opts entries store clock).invoked := by
  have hrun : ∀ ms : List MigrationFile,
      storeGet (runMigrations ms (mergeOptions defs opts) ⟨store, clock, [], []⟩).1.store v
          = some r ∧
      v ∉ (runMigrations ms (mergeOptions defs opts) ⟨store, clock, [], []⟩).1.invoked := by
    intro ms
    obtain ⟨h1, h2⟩ := runMigrations_preserves_successful ms (mergeOptions defs opts)
      ⟨store, clock, [], []⟩ v r hIR hget hst
    refine ⟨h1, ?_⟩
    rw [← vcount_eq_zero_iff, h2]
    rfl
  have hcore : ∀ single : Option (List String),
      storeGet (migrateCore (mergeOptions defs opts) single entries store clock).1.store v
          = some r ∧
      v ∉ (migrateCore (mergeOptions defs opts) single entries store clock).1.invoked := by
    intro single
    cases hg : gather (mergeOptions defs opts) entries with
    | error msg =>
      simp only [migrateCore, hg]
      exact ⟨hget, by simp⟩
    | ok migrations =>
      cases single with
      | none =>
        simp only [migrateCore, hg]
        exact hrun migrations
      | some tokens =>
        cases hp : parseSingles tokens with
        | error msg =>
          simp only [migrateCore, hg, hp]
          exact ⟨hget, by simp⟩
        | ok vs =>
          cases hs : selectSingles migrations vs with
          | error msg =>
            simp only [migrateCore, hg, hp, hs]
            exact ⟨hget, by simp⟩
          | ok filtered =>
            simp only [migrateCore, hg, hp, hs]
            exact hrun (sortMigrationFiles filtered)
  exact hcore (singleTokens opts)

theorem claim_C2_witness :
    ((mergeOptions defaults none).ignoreRemote = false
      ∧ storeGet [(⟨1, 0, 0⟩, ⟨5, ⟨1, 0, 0⟩, .successful⟩)] ⟨1, 0, 0⟩ =
          some ⟨5, ⟨1, 0, 0⟩, .successful⟩
      ∧ (⟨5, ⟨1, 0, 0⟩, .successful⟩ : MigrationResult).status = .successful)
    ∧ (storeGet (migrate defaults none [⟨("1__a.js"), some true⟩]
          [(⟨1, 0, 0⟩, ⟨5, ⟨1, 0, 0⟩, .successful⟩)] 10).store ⟨1, 0, 0⟩ =
        some ⟨5, ⟨1, 0, 0⟩, .successful⟩
      ∧ ⟨1, 0, 0⟩ ∉ (migrate defaults none [⟨("1__a.js"), some true⟩]
          [(⟨1, 0, 0⟩, ⟨5, ⟨1, 0, 0⟩, .successful⟩)] 10).invoked) :=
  ⟨⟨rfl, rfl, rfl⟩,
    claim_C2 defaults none [⟨("1__a.js"), some true⟩]
      [(⟨1, 0, 0⟩, ⟨5, ⟨1, 0, 0⟩, .successful⟩)] 10 ⟨1, 0, 0⟩
      ⟨5, ⟨1, 0, 0⟩, .successful⟩ rfl rfl rfl⟩

/-- C3: a successful discovery returns a list that is strictly ascending
by normalized semantic version, and the same list is returned for every
permutation of the filesystem enumeration. -/
theorem claim_C3 (options : Options) (entries : List FileEntry)
    (ms : List MigrationFile) (h : gather options entries = .ok ms) :
    ms.Pairwise fileLt
    ∧ ∀ entries', entries.Perm entries' → gather options entries' = .ok ms :=
  ⟨gather_ok_sorted options entries ms h,
   fun entries' hp => gather_perm_invariant options entries entries' ms h hp⟩

theorem claim_C3_witness :
    gather defaults [⟨("2__b.js"), some true⟩, ⟨("1__a.js"), some true⟩] =
        .ok [⟨⟨1, 0, 0⟩, ("a"), true⟩, ⟨⟨2, 0, 0⟩, ("b"), true⟩]
    ∧ (List.Pairwise fileLt [⟨⟨1, 0, 0⟩, ("a"), true⟩, ⟨⟨2, 0, 0⟩, ("b"), true⟩]
      ∧ ∀ entries',
          ([⟨("2__b.js"), some true⟩, ⟨("1__a.js"), some true⟩] :
            List FileEntry).Perm entries' →
          gather defaults entries' =
            .ok [⟨⟨1, 0, 0⟩, ("a"), true⟩, ⟨⟨2, 0, 0⟩, ("b"), true⟩]) :=
  ⟨rfl, claim_C3 defaults [⟨("2__b.js"), some true⟩, ⟨("1__a.js"), some true⟩]
    [⟨⟨1, 0, 0⟩, ("a"), true⟩, ⟨⟨2, 0, 0⟩, ("b"), true⟩] rfl⟩

/-- C4: under `dryRun` the engine changes no state at all — no procedure
runs (no invocation is recorded) and no record is written, for any
migration list — while it still walks the list performing the
per-migration lookup and skip decision, and ends the entire run at the
first migration that would otherwise execute (the produced log shows one
skip line per already-successful migration followed by the single
dry-run stop); at the `migrate` level the store, clock and invocation
list come back unchanged. -/
theorem claim_C4 (options : Options) (hdry : options.dryRun = true) :
    (∀ ms st, runMigrations ms options st =
      ({ st with log := st.log ++ dryRunLog options st.store ms }, .ok ()))
    ∧ ∀ defs opts entries store clock, mergeOptions defs opts = options →
        (migrate defs opts entries store clock).store = store ∧
        (migrate defs opts entries store clock).clock = clock ∧
        (migrate defs opts entries store clock).invoked = [] := by
  have hrun : ∀ ms st, runMigrations ms options st =
      ({ st with log := st.log ++ dryRunLog options st.store ms }, .ok ()) := by
    intro ms
    induction ms with
    | nil =>
      intro st
      simp [runMigrations, dryRunLog]
    | cons m rest ih =>
      intro st
      cases hsk : alreadyRun options st.store m with
      | true =>
        rw [runMigrations_cons_skip m rest options st hsk, ih]
        simp [dryRunLog, hsk]
      | false =>
        rw [runMigrations_cons_dry m rest options st hsk hdry]
        simp [dryRunLog, hsk]
  refine ⟨hrun, ?_⟩
  intro defs opts entries store clock hmerge
  have hcore : ∀ single : Option (List String),
      (migrateCore options single entries store clock).1.store = store ∧
      (migrateCore options single entries store clock).1.clock = clock ∧
      (migrateCore options single entries store clock).1.invoked = [] := by
    intro single
    cases hg : gather options entries with
    | error msg =>
      simp [migrateCore, hg]
    | ok migrations =>
      cases single with
      | none =>
        simp only [migrateCore, hg]
        rw [hrun migrations ⟨store, clock, [], []⟩]
        exact ⟨rfl, rfl, rfl⟩
      | some tokens =>
        cases hp : parseSingles tokens with
        | error msg => simp [migrateCore, hg, hp]
        | ok vs =>
          cases hs : selectSingles migrations vs with
          | error msg => simp [migrateCore, hg, hp, hs]
          | ok filtered =>
            simp only [migrateCore, hg, hp, hs]
            rw [hrun (sortMigrationFiles filtered) ⟨store, clock, [], []⟩]
            exact ⟨rfl, rfl, rfl⟩
  have hfinal := hcore (singleTokens opts)
  rw [← hmerge] at hfinal
  exact hfinal

theorem claim_C4_witness :
    ({ defaults with dryRun := true } : Options).dryRun = true
    ∧ runMigrations [⟨⟨1, 0, 0⟩, ("a"), true⟩] { defaults with dryRun := true }
        ⟨[], 0, [], []⟩ =
      ({ (⟨[], 0, [], []⟩ : RunState) with
          log := (⟨[], 0, [], []⟩ : RunState).log ++
            dryRunLog { defaults with dryRun := true }
              (⟨[], 0, [], []⟩ : RunState).store [⟨⟨1, 0, 0⟩, ("a"), true⟩] }, .ok ()) :=
  ⟨rfl, (claim_C4 { defaults with dryRun := true } rfl).1 [⟨⟨1, 0, 0⟩, ("a"), true⟩]
    ⟨[], 0, [], []⟩⟩

theorem migrateCore_gather_error (merged : Options) (single : Option (List String))
    (entries : List FileEntry) (store : Store) (clock : Nat) (msg : String)
    (hg : gather merged entries = .error msg) :
    migrateCore merged single entries store clock =
      (⟨store, clock, [], []⟩, .error msg) := by
  simp [migrateCore, hg]

theorem not_nodup_of_map_some_dup (A B C : List (Option Semver)) (v : Semver)
    (ws : List Semver) (h : A ++ some v :: (B ++ some v :: C) = ws.map some) :
    ¬ ws.Nodup := by
  intro hnd
  have hle := vcount_le_one_of_nodup v ws hnd
  have hcomp : ((fun y => decide (y = some v)) ∘ some) =
      (fun w : Semver => decide (w = v)) := by
    funext w
    simp
  have hcnt : (ws.map some).countP (fun y => decide (y = some v)) = vcount v ws := by
    rw [List.countP_map, hcomp]
    rfl
  have h2 : 2 ≤ (A ++ some v :: (B ++ some v :: C)).countP
      (fun y => decide (y = some v)) := by
    simp [List.countP_append, List.countP_cons]
    omega
  rw [h, hcnt] at h2
  omega

/-- C5: whenever two enumerated files both pass the delimiter filter and
their raw version tokens normalize to the same version — even textually
different tokens such as `"1"` and `"1.0.0"` — discovery fails (it never
returns a descriptor list), and the whole `migrate` invocation
terminates with an error before any migration procedure was executed
(the invocation list is empty). -/
theorem claim_C5 (options : Options) (l1 l2 l3 : List FileEntry) (e1 e2 : FileEntry)
    (v : Semver)
    (hf1 : passesFilter options e1 = true) (hf2 : passesFilter options e2 = true)
    (hv1 : coerceOf options e1 = some v) (hv2 : coerceOf options e2 = some v) :
    (∀ ms, gather options (l1 ++ e1 :: l2 ++ e2 :: l3) ≠ .ok ms)
    ∧ ∀ defs opts store clock, mergeOptions defs opts = options →
        (migrate defs opts (l1 ++ e1 :: l2 ++ e2 :: l3) store clock).invoked = []
        ∧ ∃ msg, (migrate defs opts (l1 ++ e1 :: l2 ++ e2 :: l3) store clock).outcome =
            .error msg := by
  have hfail : ∀ ms, gather options (l1 ++ e1 :: l2 ++ e2 :: l3) ≠ .ok ms := by
    intro ms h
    obtain ⟨ws, contents, hc, -, -⟩ := gather_ok_elim options _ ms h
    obtain ⟨ws0, hmap, -, hnd, -⟩ := (checkVersions_ok_iff options _ [] ws).mp hc
    have hfilter : (l1 ++ e1 :: l2 ++ e2 :: l3).filter (passesFilter options) =
        (l1.filter (passesFilter options)) ++ e1 ::
          ((l2.filter (passesFilter options)) ++ e2 ::
            (l3.filter (passesFilter options))) := by
      simp [List.filter_append, List.filter_cons, hf1, hf2]
    rw [hfilter] at hmap
    simp only [List.map_append, List.map_cons, hv1, hv2] at hmap
    exact not_nodup_of_map_some_dup _ _ _ v ws0 hmap hnd
  refine ⟨hfail, ?_⟩
  intro defs opts store clock hmerge
  cases hg : gather options (l1 ++ e1 :: l2 ++ e2 :: l3) with
  | ok ms => exact absurd hg (hfail ms)
  | error msg =>
    have hm := migrateCore_gather_error options (singleTokens opts)
      (l1 ++ e1 :: l2 ++ e2 :: l3) store clock msg hg
    constructor
    · show (migrateCore (mergeOptions defs opts) (singleTokens opts)
        (l1 ++ e1 :: l2 ++ e2 :: l3) store clock).1.invoked = []
      rw [hmerge, hm]
    · refine ⟨msg, ?_⟩
      show (migrateCore (mergeOptions defs opts) (singleTokens opts)
        (l1 ++ e1 :: l2 ++ e2 :: l3) store clock).2 = .error msg
      rw [hmerge, hm]

theorem claim_C5_witness :
    (passesFilter defaults ⟨("1__a.js"), some true⟩ = true
      ∧ passesFilter defaults ⟨("1.0.0__b.js"), some true⟩ = true
      ∧ coerceOf defaults ⟨("1__a.js"), some true⟩ = some ⟨1, 0, 0⟩
      ∧ coerceOf defaults ⟨("1.0.0__b.js"), some true⟩ = some ⟨1, 0, 0⟩)
    ∧ ((∀ ms, gather defaults
          ([] ++ ⟨("1__a.js"), some true⟩ :: [] ++ ⟨("1.0.0__b.js"), some true⟩ :: []) ≠
          .ok ms)
      ∧ ∀ defs opts store clock, mergeOptions defs opts = defaults →
          (migrate defs opts
            ([] ++ ⟨("1__a.js"), some true⟩ :: [] ++ ⟨("1.0.0__b.js"), some true⟩ :: [])
            store clock).invoked = []
          ∧ ∃ msg, (migrate defs opts
              ([] ++ ⟨("1__a.js"), some true⟩ :: [] ++ ⟨("1.0.0__b.js"), some true⟩ :: [])
              store clock).outcome = .error msg) :=
  ⟨⟨rfl, rfl, rfl, rfl⟩,
    claim_C5 defaults [] [] [] ⟨("1__a.js"), some true⟩ ⟨("1.0.0__b.js"), some true⟩
      ⟨1, 0, 0⟩ rfl rfl rfl rfl⟩

/-- C6 as written is false on the code: selecting the same version twice
through textually different `--only` tokens (`"1"` and `"1.0.0"`) while
forcing with `ignoreRemote` runs that migration's procedure twice in one
run (the filtered list holds the descriptor once per token and the
remote skip check is disabled). -/
theorem claim_C6_counterexample :
    vcount ⟨1, 0, 0⟩ (migrate defaults
      (some { ignoreRemote := some true, single := some [("1"), ("1.0.0")] })
      [⟨("1__init.js"), some true⟩] [] 0).invoked = 2 := by rfl

/-- C6 (amended): every migration procedure is invoked at most once per
run, provided the parsed `single`/`--only` tokens are pairwise distinct
(in particular always when no selection is given), or the remote state
is honoured (`ignoreRemote` false) — in the latter case even duplicate
tokens cause at most one invocation, because the first execution's
record makes later occurrences skip and a failure halts the run. -/
theorem claim_C6 (defs : Options) (opts : Option PartialOptions)
    (entries : List FileEntry) (store : Store) (clock : Nat) (v : Semver)
    (h : (∀ ts, singleTokens opts = some ts → (ts.filterMap coerce).Nodup)
        ∨ (mergeOptions defs opts).ignoreRemote = false) :
    vcount v (migrate defs opts entries store clock).invoked ≤ 1 := by
  show vcount v
    (migrateCore (mergeOptions defs opts) (singleTokens opts) entries store clock).1.invoked ≤ 1
  rcases h with hnd | hIR
  · cases hsingle : singleTokens opts with
    | none =>
      cases hg : gather (mergeOptions defs opts) entries with
      | error msg => simp [migrateCore, hg, vcount]
      | ok migrations =>
        simp only [migrateCore, hg]
        have hb := runMigrations_vcount_le migrations (mergeOptions defs opts)
          ⟨store, clock, [], []⟩ v
        have hnodup := gather_ok_nodup _ _ _ hg
        have hle1 := vcount_le_one_of_nodup v _ hnodup
        have h0 : vcount v (⟨store, clock, [], []⟩ : RunState).invoked = 0 := rfl
        omega
    | some tokens =>
      have hndts := hnd tokens hsingle
      cases hg : gather (mergeOptions defs opts) entries with
      | error msg => simp [migrateCore, hg, vcount]
      | ok migrations =>
        cases hp : parseSingles tokens with
        | error msg => simp [migrateCore, hg, hp, vcount]
        | ok vs =>
          cases hs : selectSingles migrations vs with
          | error msg => simp [migrateCore, hg, hp, hs, vcount]
          | ok filtered =>
            simp only [migrateCore, hg, hp, hs]
            have hvs_eq : tokens.filterMap coerce = vs :=
              map_eq_map_some_filterMap coerce tokens vs (parseSingles_ok_map tokens vs hp)
            have hvnd : vs.Nodup := hvs_eq ▸ hndts
            have hfv : filtered.map (fun m => m.version) = vs :=
              selectSingles_versions migrations vs filtered hs
            have hcnt : vcount v ((sortMigrationFiles filtered).map (fun m => m.version)) ≤ 1 := by
              have hp2 : ((sortMigrationFiles filtered).map (fun m => m.version)).Perm
                  (filtered.map (fun m => m.version)) := (sortMigrationFiles_perm filtered).map _
              have : vcount v ((sortMigrationFiles filtered).map (fun m => m.version)) =
                  vcount v (filtered.map (fun m => m.version)) := hp2.countP_eq _
              rw [this, hfv]
              exact vcount_le_one_of_nodup v vs hvnd
            have hb := runMigrations_vcount_le (sortMigrationFiles filtered)
              (mergeOptions defs opts) ⟨store, clock, [], []⟩ v
            have h0 : vcount v (⟨store, clock, [], []⟩ : RunState).invoked = 0 := rfl
            omega
  · cases hg : gather (mergeOptions defs opts) entries with
    | error msg => simp [migrateCore, hg, vcount]
    | ok migrations =>
      cases hsingle : singleTokens opts with
      | none =>
        simp only [migrateCore, hg]
        have hb := runMigrations_vcount_force_false migrations (mergeOptions defs opts)
          ⟨store, clock, [], []⟩ v hIR
        have h0 : vcount v (⟨store, clock, [], []⟩ : RunState).invoked = 0 := rfl
        omega
      | some tokens =>
        cases hp : parseSingles tokens with
        | error msg => simp [migrateCore, hg, hp, vcount]
        | ok vs =>
          cases hs : selectSingles migrations vs with
          | error msg => simp [migrateCore, hg, hp, hs, vcount]
          | ok filtered =>
            simp only [migrateCore, hg, hp, hs]
            have hb := runMigrations_vcount_force_false (sortMigrationFiles filtered)
              (mergeOptions defs opts) ⟨store, clock, [], []⟩ v hIR
            have h0 : vcount v (⟨store, clock, [], []⟩ : RunState).invoked = 0 := rfl
            omega

theorem claim_C6_witness :
    ((∀ ts, singleTokens (some { single := some [("1"), ("2")] }) = some ts →
        (ts.filterMap coerce).Nodup)
      ∨ (mergeOptions defaults (some { single := some [("1"), ("2")] })).ignoreRemote = false)
    ∧ vcount ⟨1, 0, 0⟩ (migrate defaults (some { single := some [("1"), ("2")] })
        [⟨("1__a.js"), some true⟩, ⟨("2__b.js"), some true⟩] [] 0).invoked ≤ 1 :=
  ⟨Or.inr rfl,
    claim_C6 defaults (some { single := some [("1"), ("2")] })
      [⟨("1__a.js"), some true⟩, ⟨("2__b.js"), some true⟩] [] 0 ⟨1, 0, 0⟩ (Or.inr rfl)⟩

/-- C7: a migration with a `successful` remote record is, under
`ignoreRemote`, executed again (its version is appended to the
invocation list) and its document is overwritten in place with a fresh
result — `executed` is the new run's clock at the write and `status` the
new outcome — leaving exactly one record under its key rather than an
appended history. -/
theorem claim_C7 (m : MigrationFile) (rest : List MigrationFile) (options : Options)
    (st : RunState) (r : MigrationResult)
    (hIR : options.ignoreRemote = true) (hdry : options.dryRun = false)
    (hget : storeGet st.store (getIdFromMigration m) = some r)
    (hst : r.status = .successful)
    (hkeys : keyEntries st.store (getIdFromMigration m) ≤ 1) :
    runMigrations (m :: rest) options st =
      (if m.fn then runMigrations rest options (execState m st)
       else (execState m st, .error ("⚠️ Skipping next migrations")))
    ∧ (execState m st).invoked = st.invoked ++ [m.version]
    ∧ storeGet (execState m st).store (getIdFromMigration m) =
        some ⟨st.clock, m.version, if m.fn then .successful else .failed⟩
    ∧ keyEntries (execState m st).store (getIdFromMigration m) = 1 := by
  have hskip : alreadyRun options st.store m = false := by simp [alreadyRun, hIR]
  refine ⟨runMigrations_cons_exec m rest options st hskip hdry, rfl, ?_, ?_⟩
  · simp only [execState]
    exact storeGet_storeSet_self st.store (getIdFromMigration m) _
  · simp only [execState]
    rw [keyEntries_storeSet]
    rcases Nat.le_one_iff_eq_zero_or_eq_one.mp hkeys with h0 | h1
    · rw [h0]
      decide
    · rw [h1]
      decide

theorem claim_C7_witness :
    (({ defaults with ignoreRemote := true } : Options).ignoreRemote = true
      ∧ ({ defaults with ignoreRemote := true } : Options).dryRun = false
      ∧ storeGet [(⟨1, 0, 0⟩, ⟨5, ⟨1, 0, 0⟩, .successful⟩)]
          (getIdFromMigration ⟨⟨1, 0, 0⟩, ("a"), true⟩) = some ⟨5, ⟨1, 0, 0⟩, .successful⟩
      ∧ (⟨5, ⟨1, 0, 0⟩, .successful⟩ : MigrationResult).status = .successful
      ∧ keyEntries [(⟨1, 0, 0⟩, ⟨5, ⟨1, 0, 0⟩, .successful⟩)]
          (getIdFromMigration ⟨⟨1, 0, 0⟩, ("a"), true⟩) ≤ 1)
    ∧ (storeGet (execState ⟨⟨1, 0, 0⟩, ("a"), true⟩
          ⟨[(⟨1, 0, 0⟩, ⟨5, ⟨1, 0, 0⟩, .successful⟩)], 10, [], []⟩).store
          (getIdFromMigration ⟨⟨1, 0, 0⟩, ("a"), true⟩) =
        some ⟨10, ⟨1, 0, 0⟩, .successful⟩
      ∧ keyEntries (execState ⟨⟨1, 0, 0⟩, ("a"), true⟩
          ⟨[(⟨1, 0, 0⟩, ⟨5, ⟨1, 0, 0⟩, .successful⟩)], 10, [], []⟩).store
          (getIdFromMigration ⟨⟨1, 0, 0⟩, ("a"), true⟩) = 1) :=
  ⟨⟨rfl, rfl, rfl, rfl, by decide⟩,
    (claim_C7 ⟨⟨1, 0, 0⟩, ("a"), true⟩ [] { defaults with ignoreRemote := true }
      ⟨[(⟨1, 0, 0⟩, ⟨5, ⟨1, 0, 0⟩, .successful⟩)], 10, [], []⟩
      ⟨5, ⟨1, 0, 0⟩, .successful⟩ rfl rfl rfl rfl (by decide)).2.2⟩

theorem migrateCore_parse_error (merged : Options) (ts : List String)
    (entries : List FileEntry) (store : Store) (clock : Nat)
    (migrations : List MigrationFile) (msg : String)
    (hg : gather merged entries = .ok migrations)
    (hp : parseSingles ts = .error msg) :
    migrateCore merged (some ts) entries store clock =
      (⟨store, clock, [], []⟩, .error msg) := by
  simp [migrateCore, hg, hp]

theorem migrateCore_select_error (merged : Options) (ts : List String)
    (entries : List FileEntry) (store : Store) (clock : Nat)
    (migrations : List MigrationFile) (vs : List Semver) (msg : String)
    (hg : gather merged entries = .ok migrations)
    (hp : parseSingles ts = .ok vs)
    (hs : selectSingles migrations vs = .error msg) :
    migrateCore merged (some ts) entries store clock =
      (⟨store, clock, [], []⟩, .error msg) := by
  simp [migrateCore, hg, hp, hs]

/-- C8: with a `single`/`--only` selection the executed sequence is
always ascending in version order (the selected subset is re-sorted, so
the order the operator listed the tokens is irrelevant); and a token
that is unparseable or matches no discovered descriptor makes the whole
invocation fail before any execution. -/
theorem claim_C8 (defs : Options) (opts : Option PartialOptions)
    (entries : List FileEntry) (store : Store) (clock : Nat) (ts : List String)
    (hts : singleTokens opts = some ts) :
    (migrate defs opts entries store clock).invoked.Pairwise
      (fun a b => semverLe a b = true)
    ∧ ((∃ t ∈ ts, coerce t = none ∨ ∃ v, coerce t = some v ∧
          ∀ ms, gather (mergeOptions defs opts) entries = .ok ms →
            v ∉ ms.map (fun m => m.version)) →
        (migrate defs opts entries store clock).invoked = []
        ∧ ∃ msg, (migrate defs opts entries store clock).outcome = .error msg) := by
  have hasc : ∀ (ms : List MigrationFile),
      ms.Pairwise fileLe →
      ((runMigrations ms (mergeOptions defs opts) ⟨store, clock, [], []⟩).1.invoked).Pairwise
        (fun a b => semverLe a b = true) := by
    intro ms hms
    obtain ⟨ds, h1, h2⟩ := runMigrations_invoked_delta ms (mergeOptions defs opts)
      ⟨store, clock, [], []⟩
    rw [h1]
    have h0 : (⟨store, clock, [], []⟩ : RunState).invoked = [] := rfl
    rw [h0, List.nil_append]
    have hmap : (ms.map (fun m => m.version)).Pairwise
        (fun a b => semverLe a b = true) := by
      rw [List.pairwise_map]
      exact hms
    exact List.Pairwise.sublist h2 hmap
  constructor
  · show ((migrateCore (mergeOptions defs opts) (singleTokens opts)
        entries store clock).1.invoked).Pairwise (fun a b => semverLe a b = true)
    rw [hts]
    cases hg : gather (mergeOptions defs opts) entries with
    | error msg =>
      simp only [migrateCore, hg]
      exact List.Pairwise.nil
    | ok migrations =>
      cases hp : parseSingles ts with
      | error msg =>
        simp only [migrateCore, hg, hp]
        exact List.Pairwise.nil
      | ok vs =>
        cases hs : selectSingles migrations vs with
        | error msg =>
          simp only [migrateCore, hg, hp, hs]
          exact List.Pairwise.nil
        | ok filtered =>
          simp only [migrateCore, hg, hp, hs]
          exact hasc (sortMigrationFiles filtered) (sortMigrationFiles_pairwise filtered)
  · intro hbad
    cases hg : gather (mergeOptions defs opts) entries with
    | error msg =>
      have hm := migrateCore_gather_error (mergeOptions defs opts) (singleTokens opts)
        entries store clock msg hg
      constructor
      · show (migrateCore (mergeOptions defs opts) (singleTokens opts)
          entries store clock).1.invoked = []
        rw [hm]
      · refine ⟨msg, ?_⟩
        show (migrateCore (mergeOptions defs opts) (singleTokens opts)
          entries store clock).2 = .error msg
        rw [hm]
    | ok ms =>
      obtain ⟨t, ht, hcase⟩ := hbad
      cases hp : parseSingles ts with
      | error msg =>
        have hm := migrateCore_parse_error (mergeOptions defs opts) ts entries store clock
          ms msg hg hp
        constructor
        · show (migrateCore (mergeOptions defs opts) (singleTokens opts)
            entries store clock).1.invoked = []
          rw [hts, hm]
        · refine ⟨msg, ?_⟩
          show (migrateCore (mergeOptions defs opts) (singleTokens opts)
            entries store clock).2 = .error msg
          rw [hts, hm]
      | ok vs =>
        rcases hcase with hnone | ⟨v, hv, habs⟩
        · obtain ⟨w, hw⟩ := parseSingles_all_ok ts vs hp t ht
          rw [hw] at hnone
          exact absurd hnone (by simp)
        · have hvvs : v ∈ vs := parseSingles_mem ts vs t v hp ht hv
          have habs2 : ∀ m ∈ ms, m.version ≠ v := by
            intro m hm he
            exact absurd (he ▸ List.mem_map_of_mem (fun m => m.version) hm) (habs ms hg)
          cases hs : selectSingles ms vs with
          | ok filtered => exact absurd hs (selectSingles_absent ms vs v hvvs habs2 filtered)
          | error msg =>
            have hm := migrateCore_select_error (mergeOptions defs opts) ts entries store
              clock ms vs msg hg hp hs
            constructor
            · show (migrateCore (mergeOptions defs opts) (singleTokens opts)
                entries store clock).1.invoked = []
              rw [hts, hm]
            · refine ⟨msg, ?_⟩
              show (migrateCore (mergeOptions defs opts) (singleTokens opts)
                entries store clock).2 = .error msg
              rw [hts, hm]

theorem claim_C8_witness :
    singleTokens (some { single := some [("2.0.0"), ("1.0.0")] }) =
        some [("2.0.0"), ("1.0.0")]
    ∧ (migrate defaults (some { single := some [("2.0.0"), ("1.0.0")] })
        [⟨("1__a.js"), some true⟩, ⟨("2__b.js"), some true⟩] [] 0).invoked.Pairwise
        (fun a b => semverLe a b = true) :=
  ⟨rfl,
    (claim_C8 defaults (some { single := some [("2.0.0"), ("1.0.0")] })
      [⟨("1__a.js"), some true⟩, ⟨("2__b.js"), some true⟩] [] 0
      [("2.0.0"), ("1.0.0")] rfl).1⟩

/-- C9 as written is false on the code: the delimiter filter is applied
to the whole enumerated path, not to the filename, so in a directory
whose own path contains the delimiter a file without the delimiter in
its name is not silently excluded — here `helper.js` inside
`m__igrations` reaches the version parser and discovery fails instead of
ignoring the file. -/
theorem claim_C9_counterexample :
    gather { defaults with directory := ("m__igrations") } [⟨("helper.js"), some true⟩] =
      .error (("Invalid version: \"helper.js\".")) := by rfl

/-- C9 (amended): a file is silently excluded from discovery — same
result as if it were not enumerated at all, no descriptor and no error —
exactly when its full enumerated path (directory joined with filename)
does not contain the delimiter; for directories whose path avoids the
delimiter this is the filename-based rule the claim states, but a
delimiter occurring in the directory path defeats the filter. -/
theorem claim_C9 (options : Options) (l1 l2 : List FileEntry) (e : FileEntry)
    (h : strContains (joinPath options.directory e.base) options.delimiter = false) :
    gather options (l1 ++ e :: l2) = gather options (l1 ++ l2) := by
  have hpf : passesFilter options e = false := h
  have hfe : (l1 ++ e :: l2).filter (passesFilter options) =
      (l1 ++ l2).filter (passesFilter options) := by
    simp [List.filter_append, List.filter_cons, hpf]
  unfold gather
  rw [hfe]

theorem claim_C9_witness :
    strContains (joinPath defaults.directory ("helper.js")) defaults.delimiter = false
    ∧ gather defaults ([] ++ ⟨("helper.js"), some true⟩ :: []) = gather defaults ([] ++ []) :=
  ⟨rfl, claim_C9 defaults [] [] ⟨("helper.js"), some true⟩ rfl⟩

/-- C10: `Object.assign(defaults, options)` mutates the module-level
`defaults` object, so after a call with explicit options the defaults
equal the merged options, and a later call in the same process that
omits its options runs with the earlier call's merged options — in
particular `dryRun` once passed as `true` is still `true` for a
subsequent call that omits it, instead of the documented per-invocation
default `false`. -/
theorem claim_C10 (defs : Options) (opts : Option PartialOptions)
    (entries e2 : List FileEntry) (store s2 : Store) (clock c2 : Nat) :
    (migrate defs opts entries store clock).defaults = mergeOptions defs opts
    ∧ (migrate (migrate defs opts entries store clock).defaults none e2 s2 c2).options =
        (migrate defs opts entries store clock).options
    ∧ ∀ p : PartialOptions, p.dryRun = some true →
        (migrate (migrate defaults (some p) entries store clock).defaults
          none e2 s2 c2).options.dryRun = true := by
  refine ⟨rfl, rfl, ?_⟩
  intro p hp
  show (mergeOptions (mergeOptions defaults (some p)) none).dryRun = true
  simp [mergeOptions, hp]

theorem claim_C10_witness :
    ({ dryRun := some true } : PartialOptions).dryRun = some true
    ∧ (migrate (migrate defaults (some { dryRun := some true }) [] [] 0).defaults
        none [] [] 0).options.dryRun = true :=
  ⟨rfl, (claim_C10 defaults none [] [] [] [] 0 0).2.2 { dryRun := some true } rfl⟩

end Firemorph
